import Mathlib

/-!
Shallow embedding of the win-secrets SOPS filesystem proxy (Go), covering
the path-to-key-path derivation (`parseSopsKeyPath`), the secret tree and
`navigateToPath`, the decrypted-value cache (`readSecret`'s get/put and the
`cacheCleanupLoop` sweep), and the FUSE operation handlers `Getattr`,
`Open`, `Opendir`, `Readdir`, `Read`, `Release`, `Releasedir`, plus the
structural loader `GetSecretsStructure`.

Go strings are modelled as Lean `String`; byte-level operations of the Go
standard library (`strings.Split`, `strings.TrimPrefix`,
`strings.TrimSuffix`, `strings.HasPrefix`) are modelled character-wise on
`String.data`, which agrees with the byte-wise Go semantics on valid UTF-8.
Go `map[string]T` values are modelled as association lists whose update
keeps at most one binding per key, matching Go map semantics.
Time instants are integers (nanoseconds, as in Go `time.Duration`).
-/

/-- Model of Go `strings.HasPrefix s p`. -/
def goHasPre (s p : String) : Bool :=
  List.isPrefixOf p.data s.data

/-- Model of Go `strings.TrimPrefix s p`: removes one leading copy of `p`. -/
def goTrimPre (s p : String) : String :=
  if List.isPrefixOf p.data s.data then String.mk (s.data.drop p.data.length) else s

/-- Model of Go `strings.TrimSuffix s p`: removes one trailing copy of `p`. -/
def goTrimSuf (s p : String) : String :=
  if List.isSuffixOf p.data s.data then
    String.mk (s.data.take (s.data.length - p.data.length))
  else s

/-- Model of Go `strings.Split s "/"` (the only separator the source uses):
splits on every slash; the empty string yields `[""]`. -/
def splitSlashAux : List Char → List Char → List String
  | [], acc => [String.mk acc.reverse]
  | c :: cs, acc =>
    if c = '/' then String.mk acc.reverse :: splitSlashAux cs []
    else splitSlashAux cs (c :: acc)

def splitSlash (s : String) : List String :=
  splitSlashAux s.data []

/-- The per-segment suffix stripping of `parseSopsKeyPath` (main.go:298-301):
`TrimSuffix(k, ".yaml")` then `TrimSuffix(keys[i], ".txt")`. -/
def stripKeySuffixes (k : String) : String :=
  goTrimSuf (goTrimSuf k ".yaml") ".txt"

/-- Embedding of `parseSopsKeyPath` (main.go:291-303): split the path on `/`
after trimming one leading slash; require at least two parts with the first
equal to `"secrets"`; map the suffix stripping over all remaining parts. -/
def parseSopsKeyPath (filePath : String) : Option (List String) :=
  match splitSlash (goTrimPre filePath "/") with
  | p0 :: p1 :: rest =>
    if p0 = "secrets" then some ((p1 :: rest).map stripKeySuffixes) else none
  | _ => none

example : parseSopsKeyPath "/secrets/postgres/test_pass.yaml" =
    some ["postgres", "test_pass"] := by decide
example : parseSopsKeyPath "/other/path" = none := by decide
example : parseSopsKeyPath "" = none := by decide
example : parseSopsKeyPath "/secrets/a.yaml/b" = some ["a", "b"] := by decide
example : parseSopsKeyPath "/secrets/x.txt.yaml" = some ["x"] := by decide
example : parseSopsKeyPath "/secrets/" = some [""] := by decide
example : parseSopsKeyPath "/secrets//a" = some ["", "a"] := by decide

/-- A node of the secrets tree: in Go a `map[string]interface{}` value is
either a nested map (directory) or any other YAML scalar (file); we carry
the scalar's textual form in the leaf. -/
inductive Node where
  | leaf : String → Node
  | interior : List (String × Node) → Node

/-- The `isMap` classification used throughout main.go
(`node.(map[string]interface{})` type assertions). -/
def isInterior : Node → Bool
  | .interior _ => true
  | .leaf _ => false

/-- Embedding of `navigateToPath`'s loop body (main.go:90-106), walking one
node: type-assert a map, look the key up, recurse on the remaining keys. -/
def navNode : Node → List String → Option Node
  | node, [] => some node
  | .leaf _, _ :: _ => none
  | .interior m, k :: rest =>
    match List.lookup k m with
    | some child => navNode child rest
    | none => none

/-- Embedding of `navigateToPath` (main.go:90-106): the walk starts at the
root mapping `fs.secretsTree`. Returns `some node` for `(node, true)` and
`none` for `(nil, false)`. -/
def navigateToPath (tree : List (String × Node)) (keyPath : List String) : Option Node :=
  navNode (.interior tree) keyPath

mutual
/-- Every interior mapping reachable from the node lacks an empty-string key. -/
def noEmptyKeys : Node → Bool
  | .leaf _ => true
  | .interior m => noEmptyKeysL m

def noEmptyKeysL : List (String × Node) → Bool
  | [] => true
  | (k, v) :: rest => (k != "") && noEmptyKeys v && noEmptyKeysL rest
end

/-- TTL of a cached decrypted secret: `secretCacheTTL = 5 * time.Minute`
(main.go:30), in nanoseconds. -/
def secretCacheTTL : Int := 5 * 60 * 1000000000

/-- Sweep period of the cleanup loop: `cacheCleanupPeriod = 10 * time.Minute`
(main.go:31), in nanoseconds. -/
def cacheCleanupPeriod : Int := 10 * 60 * 1000000000

/-- Embedding of `cachedSecret` (main.go:24-27). -/
structure cachedSecret where
  value : String
  timestamp : Int
deriving DecidableEq

/-- The cache table `fs.secretsCache : map[string]cachedSecret`, as an
association list with at most one binding per key. -/
abbrev Cache := List (String × cachedSecret)

/-- The cache lookup performed on the read path (main.go:315-323): a hit
requires presence and `time.Since(cached.timestamp) < secretCacheTTL`;
nothing is removed. -/
def cacheGet (cache : Cache) (path : String) (now : Int) : Option String :=
  match List.lookup path cache with
  | some cached => if now - cached.timestamp < secretCacheTTL then some cached.value else none
  | none => none

/-- The cache write `fs.secretsCache[path] = cachedSecret{...}`
(main.go:334-339): Go map assignment replaces any previous binding. -/
def cachePut (cache : Cache) (path : String) (entry : cachedSecret) : Cache :=
  (path, entry) :: cache.filter (fun kv => kv.1 != path)

/-- One pass of the body of `cacheCleanupLoop` (main.go:63-72): delete every
entry with `now.Sub(cached.timestamp) > secretCacheTTL`. -/
def sweepExpired (cache : Cache) (now : Int) : Cache :=
  cache.filter (fun kv => !(now - kv.2.timestamp > secretCacheTTL))

/-- The error cases of `readSecret`: `ErrNotFound` (nil key path),
`ErrInternal` (nil client), or the error returned by `DecryptKey`. -/
inductive SecretErr where
  | notFound
  | internal
  | decryptFailed (msg : String)
deriving DecidableEq

/-- Result of `readSecret`: the returned `(string, error)` pair, the cache
table it leaves behind, and how many `DecryptKey` calls it made. -/
structure RSOut where
  result : Except SecretErr String
  cache : Cache
  decryptCalls : Nat

/-- Embedding of `readSecret` (main.go:305-343). `decrypt` stands for the
external boundary `sopsClient.DecryptKey` applied to the derived key path;
`hasClient` models the `fs.sopsClient == nil` check. The Go code timestamps
the put with a second `time.Now()` taken after the decrypt; both instants
are modelled by the same `now`, which none of the claims distinguish. -/
def readSecret (decrypt : List String → Except String String) (hasClient : Bool)
    (cache : Cache) (path : String) (now : Int) : RSOut :=
  match parseSopsKeyPath path with
  | none => ⟨.error .notFound, cache, 0⟩
  | some keyPath =>
    if hasClient = false then ⟨.error .internal, cache, 0⟩
    else
      match cacheGet cache path now with
      | some v => ⟨.ok v, cache, 0⟩
      | none =>
        match decrypt keyPath with
        | .error e => ⟨.error (.decryptFailed e), cache, 1⟩
        | .ok secret => ⟨.ok secret, cachePut cache path ⟨secret, now⟩, 1⟩

/-- The attributes `Getattr` fills into `fuse.Stat_t`: a directory
(`S_IFDIR|0555`) or a regular file (`S_IFREG|0444`) with a size. -/
inductive FAttr where
  | dir
  | file (size : Nat)

/-- Embedding of `Getattr` (main.go:108-145); `.error c` is the returned
negative errno, `.ok a` is return 0 with `stat` filled as `a`. -/
def Getattr (tree : List (String × Node)) (path : String) : Except Int FAttr :=
  if path = "/" then .ok .dir
  else if path = "/secrets" then .ok .dir
  else if ¬ goHasPre path "/secrets/" then .error (-2)
  else
    match parseSopsKeyPath path with
    | none => .error (-2)
    | some keyPath =>
      match navigateToPath tree keyPath with
      | none => .error (-2)
      | some (.interior _) => .ok .dir
      | some (.leaf _) => .ok (.file 4096)

/-- Embedding of `Open` (main.go:147-169): `.ok ()` is `(0, 0)`. -/
def Open (tree : List (String × Node)) (path : String) : Except Int Unit :=
  if ¬ goHasPre path "/secrets/" then .error (-2)
  else
    match parseSopsKeyPath path with
    | none => .error (-2)
    | some keyPath =>
      match navigateToPath tree keyPath with
      | none => .error (-2)
      | some (.interior _) => .error (-21)
      | some (.leaf _) => .ok ()

/-- Embedding of `Opendir` (main.go:258-284). -/
def Opendir (tree : List (String × Node)) (path : String) : Except Int Unit :=
  if path = "/" ∨ path = "/secrets" then .ok ()
  else if ¬ goHasPre path "/secrets/" then .error (-2)
  else
    match parseSopsKeyPath path with
    | none => .error (-2)
    | some keyPath =>
      match navigateToPath tree keyPath with
      | none => .error (-2)
      | some node => if isInterior node then .ok () else .error (-20)

/-- The `(name, isDirectory)` entries a directory listing emits for a
mapping's children (main.go:214-222 and 245-253). -/
def listEntries (m : List (String × Node)) : List (String × Bool) :=
  m.map (fun kv => (kv.1, isInterior kv.2))

/-- Embedding of `Readdir` (main.go:199-256). The unconditional `fill(".")`
and `fill("..")` host-convention entries are omitted; the listed children
are the modelled content. -/
def Readdir (tree : List (String × Node)) (path : String) :
    Except Int (List (String × Bool)) :=
  if path = "/" then .ok [("secrets", true)]
  else if path = "/secrets" then .ok (listEntries tree)
  else if ¬ goHasPre path "/secrets/" then .error (-2)
  else
    match parseSopsKeyPath path with
    | none => .error (-2)
    | some keyPath =>
      match navigateToPath tree keyPath with
      | none => .error (-2)
      | some (.leaf _) => .error (-20)
      | some (.interior m) => .ok (listEntries m)

/-- Result of the `Read` handler: its integer return value (bytes copied, or
a negative errno), the bytes written into the buffer, the cache it leaves,
and how many `DecryptKey` calls were made. Bytes are modelled as the
characters of the content string. -/
structure ReadOut where
  ret : Int
  bytes : List Char
  cache : Cache
  decryptCalls : Nat

/-- The tail of `Read` (main.go:183-196) applied to the outcome of
`readSecret`: any error becomes EIO (-5); `ofst >= len(data)` returns 0
bytes; otherwise `copy(buff, data[ofst:])` copies
`min (len buff) (len data - ofst)` bytes. -/
def readServe (r : RSOut) (buffLen ofst : Nat) : ReadOut :=
  match r.result with
  | .error _ => ⟨-5, [], r.cache, r.decryptCalls⟩
  | .ok secret =>
    if secret.data.length ≤ ofst then ⟨0, [], r.cache, r.decryptCalls⟩
    else
      ⟨((secret.data.drop ofst).take buffLen).length,
        (secret.data.drop ofst).take buffLen, r.cache, r.decryptCalls⟩

/-- Embedding of `Read` (main.go:176-197): prefix check, then `readSecret`
and the serving step `readServe`. FUSE offsets are non-negative (a negative
`int64` offset would panic in the Go slice expression and does not occur),
so the offset is a `Nat`. -/
def Read (decrypt : List String → Except String String) (hasClient : Bool)
    (cache : Cache) (path : String) (buffLen : Nat) (ofst : Nat) (now : Int) : ReadOut :=
  if ¬ goHasPre path "/secrets/" then ⟨-2, [], cache, 0⟩
  else readServe (readSecret decrypt hasClient cache path now) buffLen ofst

/-- Embedding of `Release` (main.go:171-174): always returns 0. -/
def Release (_path : String) : Int := 0

/-- Embedding of `Releasedir` (main.go:286-289): always returns 0. -/
def Releasedir (_path : String) : Int := 0

/-- Embedding of the structural core of `GetSecretsStructure`
(sops client file, lines 113-129) after its external boundary (the
`os.ReadFile` and `yaml.Unmarshal` of the secrets source): the parsed root
mapping is the input, and `delete(sopsFile, "sops")` removes the binding of
the key `"sops"` (a Go map holds at most one binding per key, so removing
every `"sops"` binding from the association list is the same operation). -/
def GetSecretsStructure (sopsFile : List (String × Node)) : List (String × Node) :=
  sopsFile.filter (fun kv => kv.1 != "sops")

/-- The filesystem callback operations the dispatcher serves. -/
inductive FSOp where
  | getattr (path : String)
  | openOp (path : String)
  | opendir (path : String)
  | readdir (path : String)
  | read (path : String) (buffLen : Nat) (ofst : Nat)
  | release (path : String)
  | releasedir (path : String)

/-- The integer code an operation hands back to the FUSE host: the errno on
failure, 0 on success (Read returns its byte count separately). -/
def retCode {α : Type} : Except Int α → Int
  | .error e => e
  | .ok _ => 0

/-- Outcome of dispatching one operation: return code, the cache table
afterwards, and the number of `DecryptKey` calls the operation made. -/
structure DispOut where
  ret : Int
  cache : Cache
  decryptCalls : Nat

/-- One dispatched filesystem callback, with its effect on the cache table
and the decrypt boundary made explicit. Every handler except `Read` is a
pure function of the tree and the path: their Go bodies neither touch
`fs.secretsCache` nor call `DecryptKey`. -/
def dispatch (decrypt : List String → Except String String) (hasClient : Bool)
    (tree : List (String × Node)) (cache : Cache) (now : Int) : FSOp → DispOut
  | .getattr p => ⟨retCode (Getattr tree p), cache, 0⟩
  | .openOp p => ⟨retCode (Open tree p), cache, 0⟩
  | .opendir p => ⟨retCode (Opendir tree p), cache, 0⟩
  | .readdir p => ⟨retCode (Readdir tree p), cache, 0⟩
  | .read p buffLen ofst =>
    let r := Read decrypt hasClient cache p buffLen ofst now
    ⟨r.ret, r.cache, r.decryptCalls⟩
  | .release p => ⟨Release p, cache, 0⟩
  | .releasedir p => ⟨Releasedir p, cache, 0⟩

/-- Whether the operation is the file read (the only handler that may call
the decrypt boundary or write the cache). -/
def isReadOp : FSOp → Bool
  | .read _ _ _ => true
  | _ => false


/-! Helper lemmas about association-list lookups under the key-removing
filters used by `cachePut` and `GetSecretsStructure`. -/

theorem lookup_cons_of_beq {α : Type} (q : String) (kv : String × α)
    (rest : List (String × α)) (h : (q == kv.1) = false) :
    List.lookup q (kv :: rest) = List.lookup q rest := by
  obtain ⟨k, v⟩ := kv
  simp only [List.lookup, h]

theorem lookup_filterKey_self {α : Type} (l : List (String × α)) (p : String) :
    List.lookup p (l.filter (fun kv => kv.1 != p)) = none := by
  induction l with
  | nil => rfl
  | cons kv rest ih =>
    by_cases hk : kv.1 = p
    · rw [List.filter_cons_of_neg (by simp [hk])]
      exact ih
    · rw [List.filter_cons_of_pos (by simp [hk]),
        lookup_cons_of_beq p kv _ (by simp [Ne.symm hk])]
      exact ih

theorem lookup_filterKey_ne {α : Type} (l : List (String × α)) (p q : String)
    (h : q ≠ p) :
    List.lookup q (l.filter (fun kv => kv.1 != p)) = List.lookup q l := by
  induction l with
  | nil => rfl
  | cons kv rest ih =>
    by_cases hk : kv.1 = p
    · rw [List.filter_cons_of_neg (by simp [hk]),
        lookup_cons_of_beq q kv _ (by simp [hk ▸ h]), ih]
    · rw [List.filter_cons_of_pos (by simp [hk])]
      obtain ⟨k, v⟩ := kv
      simp only [List.lookup]
      cases q == k with
      | true => rfl
      | false => exact ih

theorem lookup_none_of_filter {α : Type} (l : List (String × α)) (p : String)
    (f : String × α → Bool) (h : List.lookup p l = none) :
    List.lookup p (l.filter f) = none := by
  induction l with
  | nil => rfl
  | cons kv rest ih =>
    obtain ⟨k, v⟩ := kv
    simp only [List.lookup] at h
    cases hq : p == k with
    | true =>
      rw [hq] at h
      exact absurd h (by simp)
    | false =>
      rw [hq] at h
      by_cases hf : f (k, v)
      · rw [List.filter_cons_of_pos hf, lookup_cons_of_beq p (k, v) _ hq]
        exact ih h
      · rw [List.filter_cons_of_neg (by simpa using hf)]
        exact ih h

/-- C1 counterexample: `parseSopsKeyPath` does not carry non-final segments
unchanged — on `/secrets/a.yaml/b` the non-final segment `a.yaml` loses its
suffix, so the derivation yields `["a", "b"]` rather than `["a.yaml", "b"]`. -/
theorem parse_suffix_nonfinal_cex :
    parseSopsKeyPath "/secrets/a.yaml/b" = some ["a", "b"] ∧
      some ["a", "b"] ≠ some ["a.yaml", "b"] := by
  exact ⟨by decide, by decide⟩

/-- C1 (amended): for every path accepted by the prefix check, the derived
key path maps the suffix stripping (one `.yaml`, then one `.txt`) over
every segment after the root, not only the last one. -/
theorem parse_suffix_every_segment (p : String) (keys : List String)
    (h : parseSopsKeyPath p = some keys) :
    ∃ segs : List String,
      splitSlash (goTrimPre p "/") = "secrets" :: segs ∧ segs ≠ [] ∧
        keys = segs.map stripKeySuffixes := by
  unfold parseSopsKeyPath at h
  cases hs : splitSlash (goTrimPre p "/") with
  | nil => rw [hs] at h; exact absurd h (by simp)
  | cons p0 tl =>
    cases tl with
    | nil => rw [hs] at h; exact absurd h (by simp)
    | cons p1 rest =>
      rw [hs] at h
      by_cases hp : p0 = "secrets"
      · subst hp
        simp at h
        exact ⟨p1 :: rest, rfl, by simp, h.symm⟩
      · simp only [hp, if_false, ite_false] at h
        exact Option.noConfusion h

/-- C1 witness: the suffix-stripping scenario path. -/
theorem parse_suffix_every_segment_witness :
    ∃ segs : List String,
      splitSlash (goTrimPre "/secrets/postgres/test_pass.yaml" "/") =
        "secrets" :: segs ∧ segs ≠ [] ∧
        ["postgres", "test_pass"] = segs.map stripKeySuffixes :=
  parse_suffix_every_segment "/secrets/postgres/test_pass.yaml"
    ["postgres", "test_pass"] (by decide)

/-- C3: the derivation is total and, when it does not return `nil`, the key
path has at least one segment. -/
theorem parse_total_nonempty (s : String) :
    parseSopsKeyPath s = none ∨
      ∃ keys, parseSopsKeyPath s = some keys ∧ keys ≠ [] := by
  unfold parseSopsKeyPath
  cases splitSlash (goTrimPre s "/") with
  | nil => exact Or.inl rfl
  | cons p0 tl =>
    cases tl with
    | nil => exact Or.inl rfl
    | cons p1 rest =>
      by_cases hp : p0 = "secrets"
      · exact Or.inr ⟨List.map stripKeySuffixes (p1 :: rest),
          by simp only [if_pos hp], by simp⟩
      · exact Or.inl (by simp only [hp, ite_false, if_false])

/-- C4: a path that is neither synthetic root and whose derivation is
invalid gets NotFound (ENOENT) from the attribute query, for every tree. -/
theorem getattr_invalid_notfound (tree : List (String × Node)) (path : String)
    (h1 : path ≠ "/") (h2 : path ≠ "/secrets")
    (h3 : parseSopsKeyPath path = none) :
    Getattr tree path = .error (-2) := by
  unfold Getattr
  rw [if_neg h1, if_neg h2]
  by_cases hp : goHasPre path "/secrets/"
  · rw [if_neg (by simpa using hp), h3]
  · rw [if_pos (by simpa using hp)]

/-- C4 witness: the wrong-root scenario path. -/
theorem getattr_invalid_notfound_witness :
    Getattr [] "/other/path" = .error (-2) :=
  getattr_invalid_notfound [] "/other/path" (by decide) (by decide) (by decide)

/-- C2: a get right after a put at time `tPut` hits and returns the stored
value iff `now - tPut < secretCacheTTL`; and once the sweep has run at a
time `now` with `now - tPut ≥ secretCacheTTL`, any later get misses. -/
theorem cache_get_put_ttl (c : Cache) (p v : String) (tPut now now' : Int) :
    (cacheGet (cachePut c p ⟨v, tPut⟩) p now = some v ↔
      now - tPut < secretCacheTTL) ∧
    (secretCacheTTL ≤ now - tPut → now ≤ now' →
      cacheGet (sweepExpired (cachePut c p ⟨v, tPut⟩) now) p now' = none) := by
  have hl : List.lookup p (cachePut c p ⟨v, tPut⟩) = some ⟨v, tPut⟩ := by
    simp [cachePut, List.lookup]
  constructor
  · unfold cacheGet
    rw [hl]
    by_cases hc : now - tPut < secretCacheTTL
    · simp [hc]
    · simp [hc]
  · intro hexp hmono
    unfold sweepExpired cachePut
    by_cases hgt : now - tPut > secretCacheTTL
    · rw [List.filter_cons_of_neg (by simp [hgt])]
      unfold cacheGet
      rw [lookup_none_of_filter _ _ _ (lookup_filterKey_self c p)]
    · rw [List.filter_cons_of_pos (by simp; omega)]
      have hnlt : ¬ (now' - tPut < secretCacheTTL) := by omega
      simp [cacheGet, List.lookup, hnlt]

/-- C2 witness: a hit straight after the put, and a guaranteed miss after a
sweep at exactly the TTL boundary. -/
theorem cache_get_put_ttl_witness :
    (cacheGet (cachePut [] "p" ⟨"v", 0⟩) "p" 0 = some "v" ↔
      (0 : Int) - 0 < secretCacheTTL) ∧
    cacheGet (sweepExpired (cachePut [] "p" ⟨"v", 0⟩) secretCacheTTL) "p"
      secretCacheTTL = none :=
  ⟨(cache_get_put_ttl [] "p" "v" 0 0 0).1,
    (cache_get_put_ttl [] "p" "v" 0 secretCacheTTL secretCacheTTL).2
      (by omega) (le_refl _)⟩

theorem readServe_ok_eq (r : RSOut) (secret : String) (buffLen ofst : Nat)
    (h : r.result = Except.ok secret) :
    readServe r buffLen ofst =
      if secret.data.length ≤ ofst then ⟨0, [], r.cache, r.decryptCalls⟩
      else
        ⟨((secret.data.drop ofst).take buffLen).length,
          (secret.data.drop ofst).take buffLen, r.cache, r.decryptCalls⟩ := by
  obtain ⟨res, c, n⟩ := r
  simp only at h
  subst h
  rfl

theorem readServe_error_eq (r : RSOut) (e : SecretErr) (buffLen ofst : Nat)
    (h : r.result = Except.error e) :
    readServe r buffLen ofst = ⟨-5, [], r.cache, r.decryptCalls⟩ := by
  obtain ⟨res, c, n⟩ := r
  simp only at h
  subst h
  rfl

/-- C5: when the read resolves content of length `L`, an offset at or past
`L` returns zero bytes with no error, and an offset below `L` serves the
slice of the whole in-memory content starting there. -/
theorem read_offset_slicing (decrypt : List String → Except String String)
    (hasClient : Bool) (cache : Cache) (path : String) (buffLen ofst : Nat)
    (now : Int) (secret : String)
    (hpre : goHasPre path "/secrets/" = true)
    (hok : (readSecret decrypt hasClient cache path now).result =
      Except.ok secret) :
    (secret.data.length ≤ ofst →
      (Read decrypt hasClient cache path buffLen ofst now).ret = 0 ∧
      (Read decrypt hasClient cache path buffLen ofst now).bytes = []) ∧
    (ofst < secret.data.length →
      (Read decrypt hasClient cache path buffLen ofst now).bytes =
        (secret.data.drop ofst).take buffLen ∧
      (Read decrypt hasClient cache path buffLen ofst now).ret =
        (((secret.data.drop ofst).take buffLen).length : Int)) := by
  have hread : Read decrypt hasClient cache path buffLen ofst now =
      readServe (readSecret decrypt hasClient cache path now) buffLen ofst := by
    unfold Read
    rw [if_neg (by simp [hpre])]
  rw [hread, readServe_ok_eq _ _ buffLen ofst hok]
  constructor
  · intro hlen
    rw [if_pos hlen]
    exact ⟨rfl, rfl⟩
  · intro hlt
    rw [if_neg (by omega)]
    exact ⟨rfl, rfl⟩

/-- C5 witness: a 5-character secret read at offset 10 returns zero bytes. -/
theorem read_offset_slicing_witness :
    (Read (fun _ => Except.ok "hello") true [] "/secrets/a" 4096 10 0).ret = 0 ∧
    (Read (fun _ => Except.ok "hello") true [] "/secrets/a" 4096 10 0).bytes = [] :=
  (read_offset_slicing (fun _ => Except.ok "hello") true [] "/secrets/a"
    4096 10 0 "hello" (by decide) rfl).1 (by decide)

/-- C6: a cache miss whose decrypt attempt fails yields EIO (-5), makes
exactly one decrypt call, and leaves the cache table unchanged. -/
theorem read_miss_decrypt_failure (decrypt : List String → Except String String)
    (cache : Cache) (path : String) (keys : List String) (buffLen ofst : Nat)
    (now : Int) (msg : String)
    (hpre : goHasPre path "/secrets/" = true)
    (hparse : parseSopsKeyPath path = some keys)
    (hmiss : cacheGet cache path now = none)
    (hfail : decrypt keys = Except.error msg) :
    Read decrypt true cache path buffLen ofst now =
      ⟨-5, [], cache, 1⟩ := by
  have hrs : readSecret decrypt true cache path now =
      ⟨Except.error (SecretErr.decryptFailed msg), cache, 1⟩ := by
    unfold readSecret
    rw [hparse]
    simp only [Bool.true_eq_false, if_false, ite_false]
    rw [hmiss, hfail]
  unfold Read
  rw [if_neg (by simp [hpre]), hrs]
  rfl

/-- C6 witness: a concrete failing decrypt on an empty cache. -/
theorem read_miss_decrypt_failure_witness :
    Read (fun _ => Except.error "boom") true [] "/secrets/a" 1 0 0 =
      ⟨-5, [], [], 1⟩ :=
  read_miss_decrypt_failure (fun _ => Except.error "boom") [] "/secrets/a"
    ["a"] 1 0 0 "boom" (by decide) (by decide) rfl rfl

/-- C7: the read-path cache lookup is non-mutating — an expired-but-present
entry is reported as a miss, the path stays bound in the cache table after
the whole `readSecret` step (only the background sweep removes entries),
and no other path's binding is touched. -/
theorem cache_get_nonmutating (decrypt : List String → Except String String)
    (hasClient : Bool) (cache : Cache) (path : String) (now : Int)
    (cached : cachedSecret)
    (hpres : List.lookup path cache = some cached)
    (hexp : secretCacheTTL ≤ now - cached.timestamp) :
    cacheGet cache path now = none ∧
    List.lookup path (readSecret decrypt hasClient cache path now).cache ≠ none ∧
    (∀ q, q ≠ path →
      List.lookup q (readSecret decrypt hasClient cache path now).cache =
        List.lookup q cache) := by
  have hmiss : cacheGet cache path now = none := by
    have hnlt : ¬ (now - cached.timestamp < secretCacheTTL) := by omega
    simp [cacheGet, hpres, hnlt]
  have hc : (readSecret decrypt hasClient cache path now).cache = cache ∨
      ∃ secret, (readSecret decrypt hasClient cache path now).cache =
        cachePut cache path ⟨secret, now⟩ := by
    rcases hp : parseSopsKeyPath path with _ | keys
    · exact Or.inl (by simp [readSecret, hp])
    · by_cases hcl : hasClient = false
      · exact Or.inl (by simp [readSecret, hp, hcl])
      · cases hd : decrypt keys with
        | error e => exact Or.inl (by simp [readSecret, hp, hcl, hmiss, hd])
        | ok s => exact Or.inr ⟨s, by simp [readSecret, hp, hcl, hmiss, hd]⟩
  refine ⟨hmiss, ?_, ?_⟩
  · rcases hc with hc | ⟨secret, hc⟩
    · rw [hc, hpres]
      exact Option.noConfusion
    · rw [hc]
      simp [cachePut, List.lookup]
  · intro q hq
    rcases hc with hc | ⟨secret, hc⟩
    · rw [hc]
    · rw [hc]
      unfold cachePut
      rw [lookup_cons_of_beq q _ _ (by simp [hq]), lookup_filterKey_ne _ _ _ hq]

/-- C7 witness: an entry exactly at its TTL is a miss but stays present. -/
theorem cache_get_nonmutating_witness :
    cacheGet [("/secrets/a", ⟨"v", 0⟩)] "/secrets/a" secretCacheTTL = none ∧
    List.lookup "/secrets/a"
      (readSecret (fun _ => Except.error "e") true [("/secrets/a", ⟨"v", 0⟩)]
        "/secrets/a" secretCacheTTL).cache ≠ none := by
  have h := cache_get_nonmutating (fun _ => Except.error "e") true
    [("/secrets/a", ⟨"v", 0⟩)] "/secrets/a" secretCacheTTL ⟨"v", 0⟩
    (by decide) (by decide)
  exact ⟨h.1, h.2.1⟩

/-- C8: the structural loader drops the top-level `sops` metadata key and
preserves every other top-level binding. -/
theorem structure_excludes_sops (sopsFile : List (String × Node)) :
    List.lookup "sops" (GetSecretsStructure sopsFile) = none ∧
    ∀ k, k ≠ "sops" →
      List.lookup k (GetSecretsStructure sopsFile) = List.lookup k sopsFile :=
  ⟨lookup_filterKey_self sopsFile "sops",
    fun k hk => lookup_filterKey_ne sopsFile "sops" k hk⟩

/-- C8 witness: a two-key source keeps `db` and loses `sops`. -/
theorem structure_excludes_sops_witness :
    List.lookup "sops"
      (GetSecretsStructure [("sops", Node.leaf "meta"), ("db", Node.leaf "x")]) =
      none ∧
    List.lookup "db"
      (GetSecretsStructure [("sops", Node.leaf "meta"), ("db", Node.leaf "x")]) =
      List.lookup "db" [("sops", Node.leaf "meta"), ("db", Node.leaf "x")] :=
  ⟨(structure_excludes_sops [("sops", Node.leaf "meta"), ("db", Node.leaf "x")]).1,
    (structure_excludes_sops [("sops", Node.leaf "meta"), ("db", Node.leaf "x")]).2
      "db" (by decide)⟩

/-- C9: every operation other than the file read leaves the cache table
exactly as it was and makes no decrypt call, whatever the path, tree, and
cache state. -/
theorem nonread_ops_frame (decrypt : List String → Except String String)
    (hasClient : Bool) (tree : List (String × Node)) (cache : Cache) (now : Int)
    (op : FSOp) (h : isReadOp op = false) :
    (dispatch decrypt hasClient tree cache now op).cache = cache ∧
    (dispatch decrypt hasClient tree cache now op).decryptCalls = 0 := by
  cases op with
  | read p b o => exact absurd h (by simp [isReadOp])
  | getattr p => exact ⟨rfl, rfl⟩
  | openOp p => exact ⟨rfl, rfl⟩
  | opendir p => exact ⟨rfl, rfl⟩
  | readdir p => exact ⟨rfl, rfl⟩
  | release p => exact ⟨rfl, rfl⟩
  | releasedir p => exact ⟨rfl, rfl⟩

/-- C9 witness: an attribute query over a non-empty cache. -/
theorem nonread_ops_frame_witness :
    (dispatch (fun _ => Except.error "e") true [] [("k", ⟨"v", 0⟩)] 0
      (FSOp.getattr "/x")).cache = [("k", ⟨"v", 0⟩)] ∧
    (dispatch (fun _ => Except.error "e") true [] [("k", ⟨"v", 0⟩)] 0
      (FSOp.getattr "/x")).decryptCalls = 0 :=
  nonread_ops_frame (fun _ => Except.error "e") true [] [("k", ⟨"v", 0⟩)] 0
    (FSOp.getattr "/x") rfl

theorem noEmptyKeysL_lookup {m : List (String × Node)} (h : noEmptyKeysL m = true) :
    List.lookup "" m = none ∧
    ∀ k child, List.lookup k m = some child → noEmptyKeys child = true := by
  induction m with
  | nil => exact ⟨rfl, fun k child hk => by simp [List.lookup] at hk⟩
  | cons kv rest ih =>
    obtain ⟨k0, v0⟩ := kv
    simp only [noEmptyKeysL, Bool.and_eq_true, bne_iff_ne, ne_eq] at h
    obtain ⟨⟨hk0, hv0⟩, hrest⟩ := h
    have ihr := ih hrest
    constructor
    · rw [lookup_cons_of_beq _ _ _ (by simp; exact fun he => hk0 he.symm)]
      exact ihr.1
    · intro k child hk
      by_cases hkk : k = k0
      · subst hkk
        simp only [List.lookup, beq_self_eq_true] at hk
        cases hk
        exact hv0
      · rw [lookup_cons_of_beq _ _ _ (by simp [hkk])] at hk
        exact ihr.2 k child hk

theorem navNode_empty_segment :
    ∀ (keys : List String), "" ∈ keys →
      ∀ node, noEmptyKeys node = true → navNode node keys = none := by
  intro keys
  induction keys with
  | nil => intro hmem; exact absurd hmem (by simp)
  | cons k rest ih =>
    intro hmem node hn
    cases node with
    | leaf s => rfl
    | interior m =>
      have hm : noEmptyKeysL m = true := by
        simpa only [noEmptyKeys] using hn
      rcases List.mem_cons.mp hmem with h0 | h0
      · have hl : List.lookup k m = none := h0 ▸ (noEmptyKeysL_lookup hm).1
        simp [navNode, hl]
      · cases hl : List.lookup k m with
        | none => simp [navNode, hl]
        | some child =>
          have hc := (noEmptyKeysL_lookup hm).2 k child hl
          simp only [navNode, hl]
          exact ih h0 child hc

/-- C10 counterexample: paths with empty segments are indeed accepted by the
derivation, but the read operation on such a path does not return NotFound —
with the decrypt attempt failing it returns EIO (-5), not ENOENT (-2). -/
theorem empty_segment_read_eio_cex :
    parseSopsKeyPath "/secrets/" = some [""] ∧
    parseSopsKeyPath "/secrets//a" = some ["", "a"] ∧
    (Read (fun _ => Except.error "no such key") true [] "/secrets/" 4096 0 0).ret =
      -5 ∧
    ((-5 : Int) = -2 → False) :=
  ⟨by decide, by decide, by decide, by decide⟩

/-- C10 (amended): a path under the mount root whose derived key path
contains an empty segment resolves to NotFound in every tree without
empty-string keys, so the tree-resolving operations (`Getattr`, `Open`,
`Opendir`, `Readdir`) return ENOENT; the file read, which never consults
the tree, instead surfaces EIO when its decrypt attempt fails. -/
theorem empty_segment_notfound (decrypt : List String → Except String String)
    (tree : List (String × Node)) (cache : Cache) (path : String)
    (keys : List String) (buffLen ofst : Nat) (now : Int)
    (hpre : goHasPre path "/secrets/" = true)
    (hparse : parseSopsKeyPath path = some keys)
    (hmem : "" ∈ keys)
    (hne : noEmptyKeysL tree = true) :
    navigateToPath tree keys = none ∧
    Getattr tree path = Except.error (-2) ∧
    Open tree path = Except.error (-2) ∧
    Opendir tree path = Except.error (-2) ∧
    Readdir tree path = Except.error (-2) ∧
    (∀ msg, decrypt keys = Except.error msg → cacheGet cache path now = none →
      (Read decrypt true cache path buffLen ofst now).ret = -5) := by
  have hnav : navigateToPath tree keys = none :=
    navNode_empty_segment keys hmem (.interior tree)
      (by simpa only [noEmptyKeys] using hne)
  have h1 : path ≠ "/" := by
    rintro rfl; exact absurd hpre (by decide)
  have h2 : path ≠ "/secrets" := by
    rintro rfl; exact absurd hpre (by decide)
  refine ⟨hnav, ?_, ?_, ?_, ?_, ?_⟩
  · simp [Getattr, h1, h2, hpre, hparse, hnav]
  · simp [Open, hpre, hparse, hnav]
  · simp [Opendir, h1, h2, hpre, hparse, hnav]
  · simp [Readdir, h1, h2, hpre, hparse, hnav]
  · intro msg hd hm
    have hrs : readSecret decrypt true cache path now =
        ⟨Except.error (SecretErr.decryptFailed msg), cache, 1⟩ := by
      unfold readSecret
      rw [hparse]
      simp only [Bool.true_eq_false, if_false, ite_false]
      rw [hm, hd]
    unfold Read
    rw [if_neg (by simp [hpre]), hrs]
    rfl

/-- C10 witness: `/secrets/` over the tree with single key `a`. -/
theorem empty_segment_notfound_witness :
    navigateToPath [("a", Node.leaf "v")] [""] = none ∧
    Getattr [("a", Node.leaf "v")] "/secrets/" = Except.error (-2) ∧
    (Read (fun _ => Except.error "m") true [] "/secrets/" 1 0 0).ret = -5 := by
  have h := empty_segment_notfound (fun _ => Except.error "m")
    [("a", Node.leaf "v")] [] "/secrets/" [""] 1 0 0
    (by decide) (by decide) (by decide) (by decide)
  exact ⟨h.1, h.2.1, h.2.2.2.2.2 "m" rfl rfl⟩
